import Mathlib

set_option maxHeartbeats 1000000
set_option autoImplicit false

/-!
Shallow embedding of the `interface-datastore` contract
(`src/types/interface-datastore/index.d.ts`).

The repository ships only the TypeScript declaration file: method signatures,
classes and doc comments, with no executable bodies.  Every behavioural
definition below is therefore modelled from the specification's own words
(sections 3, 4.1-4.6, 7 and 8 of the design document), faithful to the
declared signatures.  Strings of the host language are modelled as lists of
characters, asynchronous sequences as lists or explicit step machines, and
fallible operations as `Except` / `Option` values.
-/

/-- Characters of a host-language string, modelled as a list of characters. -/
abbrev Str := List Char

/-- Character list of a string literal, used for concrete inputs. -/
def cs (s : String) : Str := s.toList

/-! ## Path-string normalization (Key canonical form)

Modelled from the spec: "construction from a raw string normalizes it
(collapses repeated separators, strips trailing separator, ensures leading
separator)"; the canonical string form is "segments joined with `/`, always
prefixed with a leading `/`; never contains a trailing `/` except the root
key (single `/`)". -/

/-- Modelled from the spec: splitting a path string at the `/` separator.
`acc` holds the characters of the segment currently being read, reversed. -/
def splitAux : Str → Str → List Str
  | [], acc => [acc.reverse]
  | c :: rest, acc =>
      if c = '/' then acc.reverse :: splitAux rest [] else splitAux rest (c :: acc)

/-- Drop the empty chunks produced by repeated, leading or trailing separators. -/
def keepSegs (gs : List Str) : List Str := gs.filter (fun g => !g.isEmpty)

/-- Namespace segments of a path string: split at `/`, dropping empty chunks. -/
def segsOf (s : Str) : List Str := keepSegs (splitAux s [])

/-- Render a nonempty segment list: each segment preceded by a `/`. -/
def renderTail : List Str → Str
  | [] => []
  | g :: rest => '/' :: (g ++ renderTail rest)

/-- Canonical string form of a segment list; the empty list is the root `/`. -/
def render (gs : List Str) : Str := if gs = [] then ['/'] else renderTail gs

/-- Modelled from the spec: ensure the leading separator. -/
def ensureLeading (s : Str) : Str := if s.head? = some '/' then s else '/' :: s

/-- Modelled from the spec: collapse repeated separators. -/
def collapse : Str → Str
  | [] => []
  | [c] => [c]
  | c :: d :: rest =>
      if c = '/' ∧ d = '/' then collapse (d :: rest) else c :: collapse (d :: rest)

/-- Modelled from the spec: strip one trailing separator (kept on the root `/`). -/
def stripTrailing : Str → Str
  | [] => []
  | [c] => [c]
  | [c, d] => if d = '/' then [c] else [c, d]
  | c :: d :: e :: rest => c :: stripTrailing (d :: e :: rest)

/-- Modelled from the spec: path normalization, as performed by the `Key`
constructor (`clean`): ensure leading `/`, collapse `//`, strip trailing `/`. -/
def normalizePath (s : Str) : Str := stripTrailing (collapse (ensureLeading s))

/-- No two adjacent separator characters occur in the string. -/
def noDouble : Str → Bool
  | [] => true
  | [_] => true
  | c :: d :: rest => !(c = '/' && d = '/') && noDouble (d :: rest)

/-- The string does not end with a separator character. -/
def noTrail : Str → Bool
  | [] => true
  | [c] => !(c = '/')
  | _ :: rest => noTrail rest

/-- Canonical-form strings: the root `/`, or a `/`-led string with no repeated
and no trailing separator. -/
def goodStr (s : Str) : Prop :=
  s = ['/'] ∨ (s.head? = some '/' ∧ noDouble s = true ∧ noTrail s = true)

/-- A well-formed namespace segment: nonempty and free of the separator. -/
def goodSeg (g : Str) : Bool := !g.isEmpty && !(decide ('/' ∈ g))

/-- All segments of the list are well-formed. -/
def goodSegs (gs : List Str) : Bool := gs.all goodSeg

example : segsOf (cs "/a//b/") = [cs "a", cs "b"] := by decide
example : normalizePath (cs "a//b/") = cs "/a/b" := by decide
example : normalizePath (cs "") = cs "/" := by decide
example : render (segsOf (cs "//x///y")) = normalizePath (cs "//x///y") := by decide

/-! ## Lemmas: splitting, rendering and normalization agree -/

theorem keepSegs_nil : keepSegs [] = [] := rfl

theorem keepSegs_cons (g : Str) (gs : List Str) :
    keepSegs (g :: gs) = if g = [] then keepSegs gs else g :: keepSegs gs := by
  cases g <;> simp [keepSegs]

theorem keepSegs_cons_nil (gs : List Str) : keepSegs ([] :: gs) = keepSegs gs := by
  simp [keepSegs_cons]

theorem keepSegs_cons_ne (g : Str) (gs : List Str) (h : g ≠ []) :
    keepSegs (g :: gs) = g :: keepSegs gs := by
  simp [keepSegs_cons, h]

theorem splitAux_nil (acc : Str) : splitAux [] acc = [acc.reverse] := rfl

theorem splitAux_cons (c : Char) (rest acc : Str) :
    splitAux (c :: rest) acc =
      if c = '/' then acc.reverse :: splitAux rest [] else splitAux rest (c :: acc) := rfl

theorem splitAux_slash (rest acc : Str) :
    splitAux ('/' :: rest) acc = acc.reverse :: splitAux rest [] := by
  simp [splitAux_cons]

theorem splitAux_other {c : Char} (h : c ≠ '/') (rest acc : Str) :
    splitAux (c :: rest) acc = splitAux rest (c :: acc) := by
  simp [splitAux_cons, h]

theorem splitAux_append_of_noslash :
    ∀ (g : Str), '/' ∉ g → ∀ (rest acc : Str),
      splitAux (g ++ rest) acc = splitAux rest (g.reverse ++ acc) := by
  intro g
  induction g with
  | nil => intro _ rest acc; simp
  | cons c g ih =>
      intro h rest acc
      have hc : c ≠ '/' := by
        intro hc; exact h (hc ▸ List.mem_cons_self c g)
      have hg : '/' ∉ g := fun hm => h (List.mem_cons_of_mem _ hm)
      rw [List.cons_append, splitAux_other hc, ih hg rest (c :: acc)]
      simp

theorem splitAux_renderTail :
    ∀ (gs : List Str), goodSegs gs = true → ∀ (acc : Str),
      splitAux (renderTail gs) acc = acc.reverse :: gs := by
  intro gs
  induction gs with
  | nil => intro _ acc; simp [renderTail, splitAux_nil]
  | cons g gs ih =>
      intro h acc
      have hg : goodSeg g = true ∧ goodSegs gs = true := by
        simpa [goodSegs, Bool.and_eq_true] using h
      have hslash : '/' ∉ g := by
        have := hg.1
        simp only [goodSeg, Bool.and_eq_true, Bool.not_eq_true'] at this
        simpa using this.2
      rw [renderTail, splitAux_slash, splitAux_append_of_noslash g hslash,
        ih hg.2 (g.reverse ++ [])]
      simp

theorem keepSegs_of_goodSegs :
    ∀ (gs : List Str), goodSegs gs = true → keepSegs gs = gs := by
  intro gs
  induction gs with
  | nil => intro _; rfl
  | cons g gs ih =>
      intro h
      have hg : goodSeg g = true ∧ goodSegs gs = true := by
        simpa [goodSegs, Bool.and_eq_true] using h
      have hne : g ≠ [] := by
        have := hg.1
        simp only [goodSeg, Bool.and_eq_true, Bool.not_eq_true'] at this
        simpa using this.1
      rw [keepSegs_cons_ne g gs hne, ih hg.2]

theorem segsOf_render (gs : List Str) (h : goodSegs gs = true) : segsOf (render gs) = gs := by
  cases gs with
  | nil => rfl
  | cons g gs =>
      have hr : render (g :: gs) = renderTail (g :: gs) := by simp [render]
      rw [hr]
      show keepSegs (splitAux (renderTail (g :: gs)) []) = g :: gs
      rw [splitAux_renderTail (g :: gs) h []]
      simp only [List.reverse_nil]
      rw [keepSegs_cons_nil, keepSegs_of_goodSegs _ h]

theorem splitAux_no_slash :
    ∀ (s acc : Str), '/' ∉ acc → ∀ g ∈ splitAux s acc, '/' ∉ g := by
  intro s
  induction s with
  | nil =>
      intro acc hacc g hg
      rw [splitAux_nil] at hg
      simp only [List.mem_singleton] at hg
      subst hg
      simpa [List.mem_reverse] using hacc
  | cons c rest ih =>
      intro acc hacc g hg
      by_cases hc : c = '/'
      · subst hc
        rw [splitAux_slash] at hg
        rcases List.mem_cons.mp hg with h1 | h1
        · subst h1; simpa [List.mem_reverse] using hacc
        · exact ih [] (by simp) g h1
      · rw [splitAux_other hc] at hg
        refine ih (c :: acc) ?_ g hg
        intro hm
        rcases List.mem_cons.mp hm with h1 | h1
        · exact hc h1.symm
        · exact hacc h1

theorem goodSegs_segsOf (s : Str) : goodSegs (segsOf s) = true := by
  rw [goodSegs, List.all_eq_true]
  intro g hg
  have hg' : g ∈ splitAux s [] ∧ ¬g.isEmpty = true := by
    simpa [segsOf, keepSegs, List.mem_filter] using hg
  have h1 : '/' ∉ g := splitAux_no_slash s [] (by simp) g hg'.1
  simp [goodSeg, hg'.2, h1]

theorem noDouble_tail (c : Char) (t : Str) (h : noDouble (c :: t) = true) :
    noDouble t = true := by
  cases t with
  | nil => rfl
  | cons d r =>
      simp only [noDouble, Bool.and_eq_true] at h
      exact h.2

theorem noTrail_tail (c : Char) (t : Str) (h : noTrail (c :: t) = true) :
    noTrail t = true := by
  cases t with
  | nil => rfl
  | cons d r => simpa [noTrail] using h

theorem noTrail_cons_cons (c x : Char) (xs : Str) :
    noTrail (c :: x :: xs) = noTrail (x :: xs) := rfl

theorem renderTail_segs_reconstruct :
    ∀ (n : Nat) (t acc : Str), t.length ≤ n → acc ≠ [] →
      noDouble t = true → noTrail t = true →
      renderTail (keepSegs (splitAux t acc)) = '/' :: (acc.reverse ++ t) := by
  intro n
  induction n with
  | zero =>
      intro t acc hlen hacc _ _
      have ht : t = [] := List.eq_nil_of_length_eq_zero (Nat.le_zero.mp hlen)
      subst ht
      obtain ⟨a, as, hrev⟩ : ∃ a as, acc.reverse = a :: as := by
        cases h : acc.reverse with
        | nil => exact absurd (by simpa using h) hacc
        | cons a as => exact ⟨a, as, rfl⟩
      rw [splitAux_nil, hrev, keepSegs_cons_ne _ _ (by simp), keepSegs_nil]
      simp [renderTail]
  | succ n ih =>
      intro t acc hlen hacc hnd hnt
      cases t with
      | nil =>
          obtain ⟨a, as, hrev⟩ : ∃ a as, acc.reverse = a :: as := by
            cases h : acc.reverse with
            | nil => exact absurd (by simpa using h) hacc
            | cons a as => exact ⟨a, as, rfl⟩
          rw [splitAux_nil, hrev, keepSegs_cons_ne _ _ (by simp), keepSegs_nil]
          simp [renderTail]
      | cons c t' =>
          by_cases hc : c = '/'
          · subst hc
            cases t' with
            | nil => exact absurd hnt (by simp [noTrail])
            | cons d t'' =>
                have hd : d ≠ '/' := by
                  intro hdd
                  subst hdd
                  simp [noDouble] at hnd
                have hnd' : noDouble t'' = true :=
                  noDouble_tail d t'' (noDouble_tail '/' (d :: t'') hnd)
                have hnt' : noTrail t'' = true :=
                  noTrail_tail d t'' (by simpa [noTrail_cons_cons] using hnt)
                obtain ⟨a, as, hrev⟩ : ∃ a as, acc.reverse = a :: as := by
                  cases h : acc.reverse with
                  | nil => exact absurd (by simpa using h) hacc
                  | cons a as => exact ⟨a, as, rfl⟩
                have hlen' : t''.length ≤ n := by
                  simp only [List.length_cons] at hlen; omega
                rw [splitAux_slash, splitAux_other hd, hrev,
                  keepSegs_cons_ne _ _ (by simp), renderTail,
                  ih t'' [d] hlen' (by simp) hnd' hnt']
                simp [← hrev]
          · have hnd' : noDouble t' = true := noDouble_tail c t' hnd
            have hnt' : noTrail t' = true := noTrail_tail c t' hnt
            have hlen' : t'.length ≤ n := by
              simp only [List.length_cons] at hlen; omega
            rw [splitAux_other hc, ih t' (c :: acc) hlen' (by simp) hnd' hnt']
            simp

theorem render_segsOf_of_goodStr (u : Str) (h : goodStr u) : render (segsOf u) = u := by
  rcases h with h | ⟨hhead, hnd, hnt⟩
  · subst h; rfl
  · obtain ⟨v, rfl⟩ : ∃ v, u = '/' :: v := by
      cases u with
      | nil => simp at hhead
      | cons c v =>
          simp only [List.head?_cons, Option.some_inj] at hhead
          exact ⟨v, by rw [hhead]⟩
    cases v with
    | nil => rfl
    | cons c w =>
        have hc : c ≠ '/' := by
          intro hcc
          subst hcc
          simp [noDouble] at hnd
        have hnd' : noDouble w = true :=
          noDouble_tail c w (noDouble_tail '/' (c :: w) hnd)
        have hnt' : noTrail w = true :=
          noTrail_tail c w (by simpa [noTrail_cons_cons] using hnt)
        have key := renderTail_segs_reconstruct w.length w [c] (le_refl _) (by simp)
          hnd' hnt'
        have hseg : segsOf ('/' :: c :: w) = keepSegs (splitAux w [c]) := by
          rw [segsOf, splitAux_slash, splitAux_other hc]
          simp [keepSegs_cons_nil]
        have hne : keepSegs (splitAux w [c]) ≠ [] := by
          intro h0
          rw [h0] at key
          exact absurd key (by simp [renderTail])
        rw [hseg, render, if_neg hne, key]
        simp

theorem collapse_cons₂ (c d : Char) (rest : Str) :
    collapse (c :: d :: rest) =
      if c = '/' ∧ d = '/' then collapse (d :: rest) else c :: collapse (d :: rest) := rfl

theorem collapse_head : ∀ (s : Str), (collapse s).head? = s.head? := by
  intro s
  induction s using collapse.induct with
  | case1 => rfl
  | case2 c => rfl
  | case3 c d rest h ih =>
      rw [collapse_cons₂, if_pos h, ih]
      simp [h.1, h.2]
  | case4 c d rest h ih =>
      rw [collapse_cons₂, if_neg h]
      rfl

theorem noDouble_cons_of (c : Char) (X : Str) (h : noDouble X = true)
    (hh : ∀ d, X.head? = some d → ¬(c = '/' ∧ d = '/')) : noDouble (c :: X) = true := by
  cases X with
  | nil => rfl
  | cons x xs =>
      simp only [noDouble, Bool.and_eq_true]
      refine ⟨?_, h⟩
      have := hh x rfl
      simp only [Bool.not_eq_true', Bool.and_eq_false_iff]
      by_cases hc : c = '/'
      · right
        have hx : ¬x = '/' := fun hx => this ⟨hc, hx⟩
        simp [hx]
      · left
        simp [hc]

theorem collapse_noDouble : ∀ (s : Str), noDouble (collapse s) = true := by
  intro s
  induction s using collapse.induct with
  | case1 => rfl
  | case2 c => rfl
  | case3 c d rest h ih => rw [collapse_cons₂, if_pos h]; exact ih
  | case4 c d rest h ih =>
      rw [collapse_cons₂, if_neg h]
      refine noDouble_cons_of c _ ih ?_
      intro e he
      rw [collapse_head (d :: rest)] at he
      simp only [List.head?_cons, Option.some_inj] at he
      subst he
      exact h

theorem collapse_ne_nil : ∀ (s : Str), s ≠ [] → collapse s ≠ [] := by
  intro s
  induction s using collapse.induct with
  | case1 => intro h; exact absurd rfl h
  | case2 c => intro _; simp [collapse]
  | case3 c d rest h ih =>
      intro _
      rw [collapse_cons₂, if_pos h]
      exact ih (by simp)
  | case4 c d rest h ih =>
      intro _
      rw [collapse_cons₂, if_neg h]
      simp

theorem stripTrailing_two (c d : Char) :
    stripTrailing [c, d] = if d = '/' then [c] else [c, d] := rfl

theorem stripTrailing_big (c d e : Char) (rest : Str) :
    stripTrailing (c :: d :: e :: rest) = c :: stripTrailing (d :: e :: rest) := rfl

theorem stripTrailing_head : ∀ (s : Str), (stripTrailing s).head? = s.head? := by
  intro s
  induction s using stripTrailing.induct with
  | case1 => rfl
  | case2 c => rfl
  | case3 c => simp [stripTrailing_two]
  | case4 c d hd => simp [stripTrailing_two, hd]
  | case5 c d e rest ih => rw [stripTrailing_big]; rfl

theorem stripTrailing_ne_nil : ∀ (s : Str), s ≠ [] → stripTrailing s ≠ [] := by
  intro s
  induction s using stripTrailing.induct with
  | case1 => intro h; exact absurd rfl h
  | case2 c => intro _; simp [stripTrailing]
  | case3 c => intro _; simp [stripTrailing_two]
  | case4 c d hd => intro _; simp [stripTrailing_two, hd]
  | case5 c d e rest ih => intro _; rw [stripTrailing_big]; simp

theorem stripTrailing_noDouble : ∀ (s : Str), noDouble s = true →
    noDouble (stripTrailing s) = true := by
  intro s
  induction s using stripTrailing.induct with
  | case1 => intro _; rfl
  | case2 c => intro _; rfl
  | case3 c => intro _; simp [stripTrailing_two, noDouble]
  | case4 c d hd => intro h; simpa [stripTrailing_two, hd] using h
  | case5 c d e rest ih =>
      intro h
      rw [stripTrailing_big]
      refine noDouble_cons_of c _ (ih (noDouble_tail c _ h)) ?_
      intro x hx
      rw [stripTrailing_head (d :: e :: rest)] at hx
      simp only [List.head?_cons, Option.some_inj] at hx
      subst hx
      intro hcd
      rw [hcd.1, hcd.2] at h
      simp [noDouble] at h

theorem stripTrailing_eq_root : ∀ (t : Str), stripTrailing t = ['/'] →
    t = ['/'] ∨ t = ['/', '/'] := by
  intro t
  induction t using stripTrailing.induct with
  | case1 => intro h; exact absurd h (by decide)
  | case2 c =>
      intro h
      simp only [stripTrailing] at h
      exact Or.inl h
  | case3 c =>
      intro h
      rw [stripTrailing_two, if_pos rfl] at h
      simp only [List.cons.injEq, and_true] at h
      right
      rw [h]
  | case4 c d hd =>
      intro h
      rw [stripTrailing_two, if_neg hd] at h
      simp at h
  | case5 c d e rest ih =>
      intro h
      rw [stripTrailing_big] at h
      simp only [List.cons.injEq] at h
      exact absurd h.2 (stripTrailing_ne_nil _ (by simp))

theorem stripTrailing_noTrail : ∀ (s : Str), noDouble s = true →
    stripTrailing s = ['/'] ∨ noTrail (stripTrailing s) = true := by
  intro s
  induction s using stripTrailing.induct with
  | case1 => intro _; right; rfl
  | case2 c =>
      intro _
      by_cases hc : c = '/'
      · left; simp [stripTrailing, hc]
      · right; simp [stripTrailing, noTrail, hc]
  | case3 c =>
      intro h
      have hc : c ≠ '/' := by
        intro hcc
        rw [hcc] at h
        simp [noDouble] at h
      right
      simp [stripTrailing_two, noTrail, hc]
  | case4 c d hd =>
      intro _
      right
      simp [stripTrailing_two, hd, noTrail_cons_cons, noTrail]
  | case5 c d e rest ih =>
      intro h
      rw [stripTrailing_big]
      rcases ih (noDouble_tail c _ h) with h1 | h1
      · rcases stripTrailing_eq_root _ h1 with h2 | h2
        · simp at h2
        · have hde : d = '/' ∧ e = '/' := by
            have h3 := h2
            simp only [List.cons.injEq] at h3
            exact ⟨h3.1, h3.2.1⟩
          rw [hde.1, hde.2] at h
          simp [noDouble] at h
      · right
        obtain ⟨x, xs, hx⟩ : ∃ x xs, stripTrailing (d :: e :: rest) = x :: xs := by
          cases hs : stripTrailing (d :: e :: rest) with
          | nil => exact absurd hs (stripTrailing_ne_nil _ (by simp))
          | cons x xs => exact ⟨x, xs, rfl⟩
        rw [hx, noTrail_cons_cons]
        rw [hx] at h1
        exact h1

theorem ensureLeading_head (s : Str) : (ensureLeading s).head? = some '/' := by
  rw [ensureLeading]
  split
  · assumption
  · rfl

theorem ensureLeading_ne_nil (s : Str) : ensureLeading s ≠ [] := by
  intro h
  have := ensureLeading_head s
  rw [h] at this
  simp at this

theorem goodStr_normalizePath (s : Str) : goodStr (normalizePath s) := by
  have h1 : (collapse (ensureLeading s)).head? = some '/' := by
    rw [collapse_head]; exact ensureLeading_head s
  have h2 : noDouble (collapse (ensureLeading s)) = true := collapse_noDouble _
  rcases stripTrailing_noTrail _ h2 with h3 | h3
  · left
    rw [normalizePath, h3]
  · right
    refine ⟨?_, ?_, h3⟩
    · rw [normalizePath, stripTrailing_head]
      exact h1
    · exact stripTrailing_noDouble _ h2

theorem segsA_ensure (s : Str) : segsOf (ensureLeading s) = segsOf s := by
  rw [ensureLeading]
  split
  · rfl
  · rw [segsOf, segsOf, splitAux_slash]
    simp [keepSegs_cons_nil]

theorem segsA_collapse : ∀ (s acc : Str),
    keepSegs (splitAux (collapse s) acc) = keepSegs (splitAux s acc) := by
  intro s
  induction s using collapse.induct with
  | case1 => intro acc; rfl
  | case2 c => intro acc; rfl
  | case3 c d rest h ih =>
      intro acc
      rw [collapse_cons₂, if_pos h, ih acc, h.1, h.2]
      rw [splitAux_slash, splitAux_slash, splitAux_slash]
      simp [keepSegs_cons]
  | case4 c d rest h ih =>
      intro acc
      rw [collapse_cons₂, if_neg h]
      by_cases hc : c = '/'
      · subst hc
        rw [splitAux_slash, splitAux_slash, keepSegs_cons, keepSegs_cons, ih []]
      · rw [splitAux_other hc, splitAux_other hc, ih (c :: acc)]

theorem segsA_strip : ∀ (s acc : Str),
    keepSegs (splitAux (stripTrailing s) acc) = keepSegs (splitAux s acc) := by
  intro s
  induction s using stripTrailing.induct with
  | case1 => intro acc; rfl
  | case2 c => intro acc; rfl
  | case3 c =>
      intro acc
      rw [stripTrailing_two, if_pos rfl]
      by_cases hc : c = '/'
      · subst hc
        rw [splitAux_slash, splitAux_slash, splitAux_nil, splitAux_slash, splitAux_nil]
        simp [keepSegs_cons]
      · rw [splitAux_other hc, splitAux_other hc, splitAux_nil, splitAux_slash, splitAux_nil]
        simp [keepSegs_cons]
  | case4 c d hd =>
      intro acc
      rw [stripTrailing_two, if_neg hd]
  | case5 c d e rest ih =>
      intro acc
      rw [stripTrailing_big]
      by_cases hc : c = '/'
      · subst hc
        rw [splitAux_slash, splitAux_slash, keepSegs_cons, keepSegs_cons, ih []]
      · rw [splitAux_other hc, splitAux_other hc, ih (c :: acc)]

theorem segsOf_normalizePath (s : Str) : segsOf (normalizePath s) = segsOf s := by
  rw [normalizePath]
  calc keepSegs (splitAux (stripTrailing (collapse (ensureLeading s))) [])
      = keepSegs (splitAux (collapse (ensureLeading s)) []) := segsA_strip _ []
    _ = keepSegs (splitAux (ensureLeading s) []) := segsA_collapse _ []
    _ = segsOf s := segsA_ensure s

theorem render_segsOf (s : Str) : render (segsOf s) = normalizePath s := by
  rw [← segsOf_normalizePath s]
  exact render_segsOf_of_goodStr (normalizePath s) (goodStr_normalizePath s)

theorem normalizePath_idem (s : Str) : normalizePath (normalizePath s) = normalizePath s := by
  rw [← render_segsOf (normalizePath s), segsOf_normalizePath s, render_segsOf s]

theorem normalizePath_render (gs : List Str) (h : goodSegs gs = true) :
    normalizePath (render gs) = render gs := by
  rw [← render_segsOf (render gs), segsOf_render gs h]

/-! ## Key (`src/types/interface-datastore/index.d.ts` lines 169-328)

Only the class declaration is shipped; the behaviour is modelled from the
spec (section 4.1): a `Key` stores the canonical string form of its path,
the constructor normalizes, and every view is computed from the segment
list of that string. -/

/-- Hierarchical key; `raw` is the stored path string (the Buffer contents). -/
structure Key where
  raw : Str
deriving DecidableEq, Repr

/-- Constructor from a string (`new Key(s)`): normalizes the path. -/
def Key.fromStr (s : Str) : Key := ⟨normalizePath s⟩

/-- `toString()`: the stored canonical path string. -/
def Key.toStr (k : Key) : Str := k.raw

/-- `toBuffer()`: byte form of the key, modelled as the stored characters. -/
def Key.toBuffer (k : Key) : Str := k.raw

/-- Constructor from a byte buffer (`new Key(buf)`): normalizes as well. -/
def Key.fromBytes (b : Str) : Key := ⟨normalizePath b⟩

/-- A key is well-formed when its stored string is in canonical form; every
key produced by the constructors and derived views is well-formed. -/
def Key.wf (k : Key) : Prop := normalizePath k.raw = k.raw

instance (k : Key) : Decidable (Key.wf k) := by
  rw [Key.wf]
  infer_instance

/-- Namespace segments of the key. -/
def Key.segs (k : Key) : List Str := segsOf k.raw

/-- `namespaces()` view. -/
def Key.namespaces (k : Key) : List Str := Key.segs k

/-- `list()` view. -/
def Key.list (k : Key) : List Str := Key.segs k

/-- `baseNamespace()`: the last segment (empty for the root key). -/
def Key.baseNamespace (k : Key) : Str := (Key.segs k).getLastD []

/-- Name part of a segment: the characters after the last `:` (the whole
segment when no `:` is present; the spec's fixed convention). -/
def segName (g : Str) : Str := (g.reverse.takeWhile (fun c => !(c = ':'))).reverse

/-- Type part of a segment: the characters before the last `:` (empty when no
`:` is present). -/
def segType (g : Str) : Str := ((g.reverse.dropWhile (fun c => !(c = ':'))).drop 1).reverse

/-- `type()`: type part of the base segment. -/
def Key.type (k : Key) : Str := segType (Key.baseNamespace k)

/-- `name()`: name part of the base segment. -/
def Key.name (k : Key) : Str := segName (Key.baseNamespace k)

/-- `parent()`: all segments but the last (the root is its own parent). -/
def Key.parent (k : Key) : Key := ⟨render (Key.segs k).dropLast⟩

/-- `path()`: parent plus the type-only base segment (dropped when empty). -/
def Key.path (k : Key) : Key :=
  ⟨render ((Key.segs k).dropLast ++ keepSegs [Key.type k])⟩

/-- `child(other)`: segment-list concatenation. -/
def Key.child (k other : Key) : Key := ⟨render (Key.segs k ++ Key.segs other)⟩

/-- `concat(...keys)`: left-to-right fold of `child`. -/
def Key.concat (k : Key) (ks : List Key) : Key := ks.foldl Key.child k

/-- `reverse()`: segment list reversed. -/
def Key.reverse (k : Key) : Key := ⟨render (Key.segs k).reverse⟩

/-- `isTopLevel()`: exactly one segment. -/
def Key.isTopLevel (k : Key) : Bool := (Key.segs k).length == 1

/-- `isAncestorOf(other)`: strict prefix containment of segment lists. -/
def Key.isAncestorOf (k other : Key) : Bool :=
  (Key.segs k).isPrefixOf (Key.segs other) && !(Key.segs k == Key.segs other)

/-- `isDecendantOf(other)`: converse of `isAncestorOf`. -/
def Key.isDecendantOf (k other : Key) : Bool := Key.isAncestorOf other k

/-- `clean()`: in-place normalization of the stored string; the returned key
is the receiver's post-state. -/
def Key.clean (k : Key) : Key := ⟨normalizePath k.raw⟩

/-- Generic lexicographic strict order on lists over a boolean strict order;
shorter prefixes sort first. -/
def lexLess {α : Type} (lt : α → α → Bool) : List α → List α → Bool
  | [], [] => false
  | [], _ :: _ => true
  | _ :: _, [] => false
  | x :: xs, y :: ys =>
      if lt x y then true else if lt y x then false else lexLess lt xs ys

/-- Character comparison by code point. -/
def charLt (c d : Char) : Bool := decide (c < d)

/-- Lexicographic comparison of segment strings. -/
def strLess (x y : Str) : Bool := lexLess charLt x y

/-- `less(other)`: lexicographic comparison over the reversed segment lists. -/
def Key.less (k other : Key) : Bool :=
  lexLess strLess (Key.segs k).reverse (Key.segs other).reverse

example : Key.less (Key.fromStr (cs "/Comedy")) (Key.fromStr (cs "/Comedy/MontyPython")) = true := by
  decide
example : (Key.reverse (Key.fromStr (cs "/a/b/c"))).raw = cs "/c/b/a" := by decide
example : (Key.child (Key.fromStr (cs "/a")) (Key.fromStr (cs "/b"))).raw = cs "/a/b" := by decide
example : (Key.parent (Key.fromStr (cs "/a/b/c"))).raw = cs "/a/b" := by decide
example : Key.type (Key.fromStr (cs "/Comedy/MontyPython/Actor:JohnCleese")) = cs "Actor" := by
  decide
example : Key.name (Key.fromStr (cs "/Comedy/MontyPython/Actor:JohnCleese")) = cs "JohnCleese" := by
  decide
example : (Key.path (Key.fromStr (cs "/Comedy/MontyPython/Actor:JohnCleese"))).raw =
    cs "/Comedy/MontyPython/Actor" := by decide

/-! ## Key lemmas -/

theorem Key.wf_fromStr (s : Str) : Key.wf (Key.fromStr s) := normalizePath_idem s

theorem Key.goodSegs_segs (k : Key) : goodSegs (Key.segs k) = true := goodSegs_segsOf k.raw

theorem Key.render_segs (k : Key) (h : Key.wf k) : render (Key.segs k) = k.raw := by
  rw [Key.segs, render_segsOf]
  exact h

theorem Key.segs_inj {a b : Key} (ha : Key.wf a) (hb : Key.wf b)
    (h : Key.segs a = Key.segs b) : a = b := by
  have h1 : a.raw = b.raw := by
    rw [← Key.render_segs a ha, ← Key.render_segs b hb, h]
  cases a
  cases b
  simpa using h1

theorem goodSegs_append (xs ys : List Str) :
    goodSegs (xs ++ ys) = (goodSegs xs && goodSegs ys) := by
  simp [goodSegs, List.all_append]

theorem Key.segs_child (a b : Key) :
    Key.segs (Key.child a b) = Key.segs a ++ Key.segs b := by
  show segsOf (render (Key.segs a ++ Key.segs b)) = _
  apply segsOf_render
  rw [goodSegs_append, Key.goodSegs_segs, Key.goodSegs_segs]
  rfl

theorem Key.wf_child (a b : Key) : Key.wf (Key.child a b) := by
  show normalizePath (render (Key.segs a ++ Key.segs b)) = render (Key.segs a ++ Key.segs b)
  apply normalizePath_render
  rw [goodSegs_append, Key.goodSegs_segs, Key.goodSegs_segs]
  rfl

theorem lexLess_cons {α : Type} (lt : α → α → Bool) (x y : α) (xs ys : List α) :
    lexLess lt (x :: xs) (y :: ys) =
      if lt x y then true else if lt y x then false else lexLess lt xs ys := rfl

theorem lexLess_irrefl {α : Type} (lt : α → α → Bool) (hirr : ∀ a, lt a a = false) :
    ∀ x, lexLess lt x x = false := by
  intro x
  induction x with
  | nil => rfl
  | cons a xs ih =>
      rw [lexLess_cons, hirr a]
      simp [ih]

theorem lexLess_asymm {α : Type} (lt : α → α → Bool)
    (hasym : ∀ a b, lt a b = true → lt b a = false) :
    ∀ x y, lexLess lt x y = true → lexLess lt y x = false := by
  intro x
  induction x with
  | nil =>
      intro y h
      cases y with
      | nil => exact absurd h (by simp [lexLess])
      | cons b ys => rfl
  | cons a xs ih =>
      intro y h
      cases y with
      | nil => exact absurd h (by simp [lexLess])
      | cons b ys =>
          rw [lexLess_cons] at h
          rw [lexLess_cons]
          by_cases h1 : lt a b = true
          · rw [hasym a b h1, if_pos h1]
            simp
          · have h1' : lt a b = false := by simpa using h1
            rw [h1'] at h
            simp only [Bool.false_eq_true, if_false] at h
            by_cases h2 : lt b a = true
            · rw [h2] at h
              simp at h
            · have h2' : lt b a = false := by simpa using h2
              rw [h2'] at h
              simp only [Bool.false_eq_true, if_false] at h
              rw [h1', h2']
              simp [ih ys h]

theorem lexLess_conn {α : Type} (lt : α → α → Bool)
    (hconn : ∀ a b, lt a b = false → lt b a = false → a = b) :
    ∀ x y, lexLess lt x y = false → lexLess lt y x = false → x = y := by
  intro x
  induction x with
  | nil =>
      intro y h1 _
      cases y with
      | nil => rfl
      | cons b ys => exact absurd h1 (by simp [lexLess])
  | cons a xs ih =>
      intro y h1 h2
      cases y with
      | nil => exact absurd h2 (by simp [lexLess])
      | cons b ys =>
          rw [lexLess_cons] at h1 h2
          by_cases hab : lt a b = true
          · rw [hab] at h1
            simp at h1
          · have hab' : lt a b = false := by simpa using hab
            by_cases hba : lt b a = true
            · rw [hba] at h2
              simp at h2
            · have hba' : lt b a = false := by simpa using hba
              rw [hab', hba'] at h1
              rw [hab', hba'] at h2
              simp only [Bool.false_eq_true, if_false] at h1 h2
              rw [hconn a b hab' hba', ih ys h1 h2]

theorem charLt_irrefl (c : Char) : charLt c c = false := by simp [charLt]

theorem charLt_asymm (c d : Char) (h : charLt c d = true) : charLt d c = false := by
  simp only [charLt, decide_eq_true_eq] at h
  simp only [charLt, decide_eq_false_iff_not]
  exact asymm h

theorem charLt_conn (c d : Char) (h1 : charLt c d = false) (h2 : charLt d c = false) :
    c = d := by
  simp only [charLt, decide_eq_false_iff_not] at h1 h2
  exact le_antisymm (not_lt.mp h2) (not_lt.mp h1)

theorem strLess_irrefl (x : Str) : strLess x x = false :=
  lexLess_irrefl charLt charLt_irrefl x

theorem strLess_asymm (x y : Str) (h : strLess x y = true) : strLess y x = false :=
  lexLess_asymm charLt charLt_asymm x y h

theorem strLess_conn (x y : Str) (h1 : strLess x y = false) (h2 : strLess y x = false) :
    x = y :=
  lexLess_conn charLt charLt_conn x y h1 h2

theorem Key.less_irrefl (a : Key) : Key.less a a = false :=
  lexLess_irrefl strLess strLess_irrefl _

theorem Key.less_asymm (a b : Key) (h : Key.less a b = true) : Key.less b a = false :=
  lexLess_asymm strLess strLess_asymm _ _ h

theorem Key.less_conn (a b : Key) (ha : Key.wf a) (hb : Key.wf b)
    (h1 : Key.less a b = false) (h2 : Key.less b a = false) : a = b := by
  have hrev := lexLess_conn strLess strLess_conn _ _ h1 h2
  have hsegs : Key.segs a = Key.segs b := by
    have := congrArg List.reverse hrev
    simpa using this
  exact Key.segs_inj ha hb hsegs

/-! ## State-passing forms of the Key operations (C2)

The class methods are declared on a mutable object and `clean(): void`
rewrites the stored buffer in place.  Modelled from the spec ("Derived views
(all pure, non-mutating)"): each operation returns its result together with
the receiver's post-state; only `clean` rewrites the stored string. -/

def Key.namespacesRun (k : Key) : List Str × Key := (Key.namespaces k, k)

def Key.baseNamespaceRun (k : Key) : Str × Key := (Key.baseNamespace k, k)

def Key.typeRun (k : Key) : Str × Key := (Key.type k, k)

def Key.nameRun (k : Key) : Str × Key := (Key.name k, k)

def Key.parentRun (k : Key) : Key × Key := (Key.parent k, k)

def Key.pathRun (k : Key) : Key × Key := (Key.path k, k)

def Key.reverseRun (k : Key) : Key × Key := (Key.reverse k, k)

def Key.childRun (k other : Key) : Key × Key := (Key.child k other, k)

def Key.concatRun (k : Key) (ks : List Key) : Key × Key := (Key.concat k ks, k)

/-- C2: Keys are immutable value objects: on any constructible (well-formed)
key, the one in-place operation `clean` leaves the receiver's observable
state unchanged, and every derived view (namespaces, baseNamespace, type,
name, parent, path, reverse, child, concat) returns a new value while the
receiver's post-state equals its pre-state. -/
theorem key_ops_immutable (k x : Key) (ks : List Key) (h : Key.wf k) :
    Key.clean k = k ∧
    (Key.namespacesRun k).2 = k ∧
    (Key.baseNamespaceRun k).2 = k ∧
    (Key.typeRun k).2 = k ∧
    (Key.nameRun k).2 = k ∧
    (Key.parentRun k).2 = k ∧
    (Key.pathRun k).2 = k ∧
    (Key.reverseRun k).2 = k ∧
    (Key.childRun k x).2 = k ∧
    (Key.concatRun k ks).2 = k := by
  refine ⟨?_, rfl, rfl, rfl, rfl, rfl, rfl, rfl, rfl, rfl⟩
  cases k with
  | mk raw => exact congrArg Key.mk h

/-- Witness for C2 at the concrete key `/a/b`. -/
theorem key_ops_immutable_witness :
    Key.clean (Key.fromStr (cs "/a/b")) = Key.fromStr (cs "/a/b") ∧
    (Key.namespacesRun (Key.fromStr (cs "/a/b"))).2 = Key.fromStr (cs "/a/b") ∧
    (Key.baseNamespaceRun (Key.fromStr (cs "/a/b"))).2 = Key.fromStr (cs "/a/b") ∧
    (Key.typeRun (Key.fromStr (cs "/a/b"))).2 = Key.fromStr (cs "/a/b") ∧
    (Key.nameRun (Key.fromStr (cs "/a/b"))).2 = Key.fromStr (cs "/a/b") ∧
    (Key.parentRun (Key.fromStr (cs "/a/b"))).2 = Key.fromStr (cs "/a/b") ∧
    (Key.pathRun (Key.fromStr (cs "/a/b"))).2 = Key.fromStr (cs "/a/b") ∧
    (Key.reverseRun (Key.fromStr (cs "/a/b"))).2 = Key.fromStr (cs "/a/b") ∧
    (Key.childRun (Key.fromStr (cs "/a/b")) (Key.fromStr (cs "/x"))).2 =
      Key.fromStr (cs "/a/b") ∧
    (Key.concatRun (Key.fromStr (cs "/a/b")) []).2 = Key.fromStr (cs "/a/b") :=
  key_ops_immutable (Key.fromStr (cs "/a/b")) (Key.fromStr (cs "/x")) []
    (Key.wf_fromStr (cs "/a/b"))

/-- C3: `Key.less` is a strict total order consistent with equality: for any
two constructible (well-formed) keys exactly one of `a.less(b)`, `b.less(a)`,
`a == b` (equality of canonical string forms) holds. -/
theorem key_less_trichotomy (a b : Key) (ha : Key.wf a) (hb : Key.wf b) :
    (Key.less a b = true ∧ Key.less b a = false ∧ Key.toStr a ≠ Key.toStr b) ∨
    (Key.less a b = false ∧ Key.less b a = true ∧ Key.toStr a ≠ Key.toStr b) ∨
    (Key.less a b = false ∧ Key.less b a = false ∧ Key.toStr a = Key.toStr b) := by
  have hstr : Key.toStr a = Key.toStr b ↔ a = b := by
    constructor
    · intro h
      cases a
      cases b
      simpa [Key.toStr] using h
    · intro h
      rw [h]
  by_cases hab : Key.less a b = true
  · left
    refine ⟨hab, Key.less_asymm a b hab, fun h => ?_⟩
    rw [hstr.mp h, Key.less_irrefl b] at hab
    exact absurd hab (by simp)
  · have hab' : Key.less a b = false := by simpa using hab
    by_cases hba : Key.less b a = true
    · right; left
      refine ⟨hab', hba, fun h => ?_⟩
      rw [hstr.mp h, Key.less_irrefl b] at hba
      exact absurd hba (by simp)
    · have hba' : Key.less b a = false := by simpa using hba
      right; right
      exact ⟨hab', hba', hstr.mpr (Key.less_conn a b ha hb hab' hba')⟩

/-- Witness for C3 at the concrete keys `/a` and `/a/b`. -/
theorem key_less_trichotomy_witness :
    (Key.less (Key.fromStr (cs "/a")) (Key.fromStr (cs "/a/b")) = true ∧
      Key.less (Key.fromStr (cs "/a/b")) (Key.fromStr (cs "/a")) = false ∧
      Key.toStr (Key.fromStr (cs "/a")) ≠ Key.toStr (Key.fromStr (cs "/a/b"))) ∨
    (Key.less (Key.fromStr (cs "/a")) (Key.fromStr (cs "/a/b")) = false ∧
      Key.less (Key.fromStr (cs "/a/b")) (Key.fromStr (cs "/a")) = true ∧
      Key.toStr (Key.fromStr (cs "/a")) ≠ Key.toStr (Key.fromStr (cs "/a/b"))) ∨
    (Key.less (Key.fromStr (cs "/a")) (Key.fromStr (cs "/a/b")) = false ∧
      Key.less (Key.fromStr (cs "/a/b")) (Key.fromStr (cs "/a")) = false ∧
      Key.toStr (Key.fromStr (cs "/a")) = Key.toStr (Key.fromStr (cs "/a/b"))) :=
  key_less_trichotomy (Key.fromStr (cs "/a")) (Key.fromStr (cs "/a/b"))
    (Key.wf_fromStr (cs "/a")) (Key.wf_fromStr (cs "/a/b"))

/-- C4: string and byte representations round-trip with construction: for
every path string `s`, `fromString(s).toString() = normalize(s)` and the
constructed key is well-formed; and for every constructible key `k`,
`fromBytes(toBytes(k)) = k`. -/
theorem key_roundtrip (s : Str) (k : Key) (h : Key.wf k) :
    Key.toStr (Key.fromStr s) = normalizePath s ∧
    Key.wf (Key.fromStr s) ∧
    Key.fromBytes (Key.toBuffer k) = k := by
  refine ⟨rfl, Key.wf_fromStr s, ?_⟩
  cases k with
  | mk raw => exact congrArg Key.mk h

/-- Witness for C4 at the concrete string `a//b/` and key `/x/y`. -/
theorem key_roundtrip_witness :
    Key.toStr (Key.fromStr (cs "a//b/")) = normalizePath (cs "a//b/") ∧
    Key.wf (Key.fromStr (cs "a//b/")) ∧
    Key.fromBytes (Key.toBuffer (Key.fromStr (cs "/x/y"))) = Key.fromStr (cs "/x/y") :=
  key_roundtrip (cs "a//b/") (Key.fromStr (cs "/x/y")) (Key.wf_fromStr (cs "/x/y"))

/-- C5: `isAncestorOf` / `isDecendantOf` are strict prefix containment over
segment lists: no key is its own ancestor or descendant, and a key is an
ancestor of its child by any non-empty key. -/
theorem key_ancestor_strict (k x : Key) (hne : Key.segs x ≠ []) :
    Key.isAncestorOf k k = false ∧
    Key.isDecendantOf k k = false ∧
    Key.isAncestorOf k (Key.child k x) = true := by
  have h1 : Key.isAncestorOf k k = false := by
    simp [Key.isAncestorOf]
  have hne2 : Key.segs k ≠ Key.segs k ++ Key.segs x := by
    intro h
    have hlen := congrArg List.length h
    rw [List.length_append] at hlen
    have h0 : (Key.segs x).length = 0 := by omega
    exact hne (List.eq_nil_of_length_eq_zero h0)
  refine ⟨h1, h1, ?_⟩
  simp only [Key.isAncestorOf, Key.segs_child, Bool.and_eq_true, Bool.not_eq_true',
    beq_eq_false_iff_ne, ne_eq]
  exact ⟨List.isPrefixOf_iff_prefix.mpr (List.prefix_append _ _), hne2⟩

/-- Witness for C5 at the concrete keys `/a` and `/b`. -/
theorem key_ancestor_strict_witness :
    Key.isAncestorOf (Key.fromStr (cs "/a")) (Key.fromStr (cs "/a")) = false ∧
    Key.isDecendantOf (Key.fromStr (cs "/a")) (Key.fromStr (cs "/a")) = false ∧
    Key.isAncestorOf (Key.fromStr (cs "/a"))
      (Key.child (Key.fromStr (cs "/a")) (Key.fromStr (cs "/b"))) = true :=
  key_ancestor_strict (Key.fromStr (cs "/a")) (Key.fromStr (cs "/b")) (by decide)

/-! ## Query pipeline (C1)

The `Query` descriptor is declared at lines 144-151 of the source and
`Adapter.query` at line 110; the execution pipeline is modelled from the
spec (section 4.3).  The raw pair sequence from the backend is a finite
list. -/

/-- Key/value pair (`Pair<Value>`, source lines 27-30). -/
structure Pair (V : Type) where
  key : Key
  value : V
deriving DecidableEq, Repr

/-- Query descriptor (source lines 144-151); `pfx` models the `prefix`
field, which is a reserved word in Lean. -/
structure Query (V : Type) where
  pfx : Option Str
  filters : List (Pair V → Bool)
  orders : List (List (Pair V) → List (Pair V))
  limit : Option Nat
  offset : Option Nat
  keysOnly : Bool

/-- Boolean test that `s` starts with `p`. -/
def strStartsWith (p s : Str) : Bool := p.isPrefixOf s

namespace Adapter

/-- Stage 1: prefix filter on the key's string form. -/
def prefixStage {V : Type} (p : Option Str) (ds : List (Pair V)) : List (Pair V) :=
  match p with
  | none => ds
  | some p => ds.filter (fun e => strStartsWith p (Key.toStr e.key))

/-- Stage 2: user filters, applied in list order. -/
def filterStage {V : Type} (fs : List (Pair V → Bool)) (ds : List (Pair V)) :
    List (Pair V) :=
  fs.foldl (fun acc f => acc.filter f) ds

/-- Stage 3: order functions, each receiving the full array, in sequence. -/
def orderStage {V : Type} (os : List (List (Pair V) → List (Pair V)))
    (ds : List (Pair V)) : List (Pair V) :=
  os.foldl (fun acc o => o acc) ds

/-- Stage 4: skip the first `offset` surviving entries (0 if absent). -/
def offsetStage {V : Type} (o : Option Nat) (ds : List (Pair V)) : List (Pair V) :=
  ds.drop (o.getD 0)

/-- Stage 5: yield at most `limit` entries (all if absent). -/
def limitStage {V : Type} (l : Option Nat) (ds : List (Pair V)) : List (Pair V) :=
  match l with
  | none => ds
  | some n => ds.take n

/-- Stage 6: keys-only projection suppresses the values. -/
def keysOnlyStage {V : Type} (b : Bool) (ds : List (Pair V)) : List (Pair (Option V)) :=
  if b then ds.map (fun e => ⟨e.key, none⟩) else ds.map (fun e => ⟨e.key, some e.value⟩)

/-- Stages 1-3: the post-filter, post-sort sequence. -/
def postSort {V : Type} (q : Query V) (ds : List (Pair V)) : List (Pair V) :=
  orderStage q.orders (filterStage q.filters (prefixStage q.pfx ds))

/-- `Adapter.query` (source line 110), modelled from the spec: the fixed
pipeline prefix filter, user filters, orders, offset, limit, keys-only. -/
def query {V : Type} (q : Query V) (ds : List (Pair V)) : List (Pair (Option V)) :=
  keysOnlyStage q.keysOnly (limitStage q.limit (offsetStage q.offset (postSort q ds)))

end Adapter

theorem filterStage_eq_filter_all {V : Type} :
    ∀ (fs : List (Pair V → Bool)) (ds : List (Pair V)),
      Adapter.filterStage fs ds = ds.filter (fun e => fs.all (fun f => f e)) := by
  intro fs
  induction fs with
  | nil => intro ds; simp [Adapter.filterStage]
  | cons f fs ih =>
      intro ds
      show Adapter.filterStage fs (ds.filter f) = _
      rw [ih (ds.filter f), List.filter_filter]
      congr 1
      funext a
      simp [Bool.and_comm]

theorem take_three_drop_two {α : Type} : ∀ (l : List α) (h : 5 ≤ l.length),
    (l.drop 2).take 3 =
      [l.get ⟨2, by omega⟩, l.get ⟨3, by omega⟩, l.get ⟨4, by omega⟩]
  | [], h => by simp at h
  | [a], h => by simp at h
  | [a, b], h => by simp at h
  | [a, b, c], h => by simp at h
  | [a, b, c, d], h => by simp at h
  | a :: b :: c :: d :: e :: rest, _ => rfl

/-- C1: `Adapter.query` applies the stages in the fixed order (prefix filter,
user filters conjunctively, orders, offset, limit, keys-only projection); in
particular with `offset = 2` and `limit = 3` the result is exactly the
elements at positions 2, 3 and 4 of the post-filter post-sort sequence. -/
theorem query_pipeline_offset_limit {V : Type} (q : Query V) (ds : List (Pair V))
    (ho : q.offset = some 2) (hl : q.limit = some 3)
    (h5 : 5 ≤ (Adapter.postSort q ds).length) :
    Adapter.filterStage q.filters (Adapter.prefixStage q.pfx ds) =
      (Adapter.prefixStage q.pfx ds).filter (fun e => q.filters.all (fun f => f e)) ∧
    Adapter.query q ds =
      Adapter.keysOnlyStage q.keysOnly
        [(Adapter.postSort q ds).get ⟨2, by omega⟩,
         (Adapter.postSort q ds).get ⟨3, by omega⟩,
         (Adapter.postSort q ds).get ⟨4, by omega⟩] := by
  refine ⟨filterStage_eq_filter_all _ _, ?_⟩
  rw [Adapter.query, ho, hl]
  congr 1
  show ((Adapter.postSort q ds).drop 2).take 3 = _
  exact take_three_drop_two _ h5

/-- Literal dataset from the spec: 10 sequentially-keyed pairs, 6 under the
prefix `/a`. -/
def sampleDS : List (Pair Nat) :=
  [⟨Key.fromStr (cs "/a/1"), 1⟩, ⟨Key.fromStr (cs "/a/2"), 2⟩,
   ⟨Key.fromStr (cs "/a/3"), 3⟩, ⟨Key.fromStr (cs "/a/4"), 4⟩,
   ⟨Key.fromStr (cs "/a/5"), 5⟩, ⟨Key.fromStr (cs "/a/6"), 6⟩,
   ⟨Key.fromStr (cs "/b/1"), 7⟩, ⟨Key.fromStr (cs "/b/2"), 8⟩,
   ⟨Key.fromStr (cs "/b/3"), 9⟩, ⟨Key.fromStr (cs "/b/4"), 10⟩]

/-- Query with prefix `/a`, `limit = 3`, `offset = 2`. -/
def sampleQuery : Query Nat :=
  ⟨some (cs "/a"), [], [], some 3, some 2, false⟩

/-- Witness for C1 on the literal dataset. -/
theorem query_pipeline_offset_limit_witness :
    Adapter.filterStage sampleQuery.filters (Adapter.prefixStage sampleQuery.pfx sampleDS) =
      (Adapter.prefixStage sampleQuery.pfx sampleDS).filter
        (fun e => sampleQuery.filters.all (fun f => f e)) ∧
    Adapter.query sampleQuery sampleDS =
      Adapter.keysOnlyStage sampleQuery.keysOnly
        [(Adapter.postSort sampleQuery sampleDS).get ⟨2, by decide⟩,
         (Adapter.postSort sampleQuery sampleDS).get ⟨3, by decide⟩,
         (Adapter.postSort sampleQuery sampleDS).get ⟨4, by decide⟩] :=
  query_pipeline_offset_limit sampleQuery sampleDS rfl rfl (by decide)

example : Adapter.query sampleQuery sampleDS =
    [⟨Key.fromStr (cs "/a/3"), some 3⟩, ⟨Key.fromStr (cs "/a/4"), some 4⟩,
     ⟨Key.fromStr (cs "/a/5"), some 5⟩] := by decide

/-! ## utils.sortAll (C6)

`utils.sortAll` (source line 115) is declared as an async generator; its
behaviour is modelled from the spec (section 4.2): it drains the entire
upstream sequence into a finite collection, invokes the sorter once on the
full collection, and re-yields the result.  The generator is modelled as an
explicit step machine; `consumed` counts the upstream elements read so
far. -/

namespace utils

/-- Machine state: still draining the upstream, or emitting sorted output. -/
inductive SAState (T : Type) where
  | draining : List T → SAState T
  | emitting : List T → SAState T

/-- Generator state: machine state plus the count of consumed upstream
elements (a side-effect counter on the producer). -/
structure SAGen (T : Type) where
  state : SAState T
  consumed : Nat

/-- Initial generator over a terminating upstream sequence. -/
def sortAllInit {T : Type} (items : List T) : SAGen T :=
  ⟨SAState.draining items, 0⟩

/-- One `next()` call: the first call drains the whole upstream and runs the
sorter once; afterwards sorted elements are re-yielded one by one. -/
def sortAllNext {T : Type} (sorter : List T → List T) (g : SAGen T) :
    Option T × SAGen T :=
  match g with
  | ⟨SAState.draining items, n⟩ =>
      match sorter items with
      | [] => (none, ⟨SAState.emitting [], n + items.length⟩)
      | y :: ys => (some y, ⟨SAState.emitting ys, n + items.length⟩)
  | ⟨SAState.emitting [], n⟩ => (none, ⟨SAState.emitting [], n⟩)
  | ⟨SAState.emitting (y :: ys), n⟩ => (some y, ⟨SAState.emitting ys, n⟩)

/-- Collect the generator's outputs, with fuel (enough fuel collects every
output of a terminating sequence). -/
def runGen {T : Type} (sorter : List T → List T) : Nat → SAGen T → List T
  | 0, _ => []
  | fuel + 1, g =>
      match sortAllNext sorter g with
      | (none, _) => []
      | (some y, g2) => y :: runGen sorter fuel g2

end utils

theorem runGen_succ {T : Type} (sorter : List T → List T) (fuel : Nat)
    (g : utils.SAGen T) :
    utils.runGen sorter (fuel + 1) g =
      match utils.sortAllNext sorter g with
      | (none, _) => []
      | (some y, g2) => y :: utils.runGen sorter fuel g2 := rfl

theorem runGen_emitting {T : Type} (sorter : List T → List T) :
    ∀ (l : List T) (n fuel : Nat), l.length ≤ fuel →
      utils.runGen sorter fuel ⟨utils.SAState.emitting l, n⟩ = l := by
  intro l
  induction l with
  | nil =>
      intro n fuel _
      cases fuel with
      | zero => rfl
      | succ fuel => rfl
  | cons y ys ih =>
      intro n fuel hlen
      cases fuel with
      | zero => simp at hlen
      | succ fuel =>
          have hrec := ih n fuel (by simpa using hlen)
          simp [utils.runGen, utils.sortAllNext, hrec]

/-- C6: `utils.sortAll` fully materializes before emitting: already at the
first `next()` call the producer's consumed counter equals the full upstream
length (so the upstream is drained before the first output element is
available), and the complete output sequence is the sorter applied once to
the full collected sequence. -/
theorem sortAll_materializes {T : Type} (sorter : List T → List T) (items : List T) :
    (utils.sortAllNext sorter (utils.sortAllInit items)).2.consumed = items.length ∧
    utils.runGen sorter ((sorter items).length + 1) (utils.sortAllInit items) =
      sorter items := by
  constructor
  · cases hs : sorter items <;>
      simp [utils.sortAllInit, utils.sortAllNext, hs]
  · cases hs : sorter items with
    | nil => simp [utils.runGen, utils.sortAllInit, utils.sortAllNext, hs]
    | cons y ys =>
        have hstep : utils.sortAllNext sorter (utils.sortAllInit items) =
            (some y, ⟨utils.SAState.emitting ys, items.length⟩) := by
          simp [utils.sortAllInit, utils.sortAllNext, hs]
        have hrun := runGen_emitting sorter ys items.length (ys.length + 1)
          (by omega)
        show utils.runGen sorter (ys.length + 1 + 1) (utils.sortAllInit items) = y :: ys
        simp only [runGen_succ, hstep]
        rw [← runGen_succ, hrun]

/-! ## Store model and error taxonomy (C7-C10)

The backing store of the reference in-memory backend is an association list
keyed by the canonical key string (spec section 4.6).  Error conditions are
the closed taxonomy of the `Errors` namespace (source lines 16-22). -/

/-- Closed error taxonomy (source lines 16-22). -/
inductive ErrKind where
  | dbOpenFailed
  | dbDeleteFailed
  | dbWriteFailed
  | notFound
  | aborted
deriving DecidableEq, Repr

/-- Store contents: association list from canonical key strings to values;
the first binding for a key wins. -/
abbrev Store (V : Type) := List (Str × V)

/-- Look up the value stored under a key string. -/
def storeLookup {V : Type} (st : Store V) (ks : Str) : Option V :=
  (st.find? (fun e => e.1 == ks)).map (fun e => e.2)

/-- Store a value: the new binding replaces any earlier one. -/
def storePut {V : Type} (st : Store V) (ks : Str) (v : V) : Store V :=
  (ks, v) :: st.filter (fun e => !(e.1 == ks))

/-- Remove every binding of the key string. -/
def storeDelete {V : Type} (st : Store V) (ks : Str) : Store V :=
  st.filter (fun e => !(e.1 == ks))

theorem storeLookup_put {V : Type} (st : Store V) (ks : Str) (v : V) :
    storeLookup (storePut st ks v) ks = some v := by
  simp [storeLookup, storePut, List.find?_cons_of_pos]

/-! ## putMany (C7)

`Adapter.putMany` (source lines 59-62) is modelled from the spec (section
4.4): consume the pair sequence, call `put` for each pair in arrival order,
re-yield each pair once stored, and fail the sequence at the first failing
`put`, with no retry and no rollback.  The backend primitive `put` is
indexed by the position of the attempt; `none` models a rejected promise.
The result carries the final store, the re-yielded pairs, the number of
attempted puts, and whether the sequence completed. -/

def putManyGo {V : Type} (put : Nat → Store V → Pair V → Option (Store V)) :
    Nat → Store V → List (Pair V) → Store V × List (Pair V) × Nat × Bool
  | _, st, [] => (st, [], 0, true)
  | i, st, p :: rest =>
      match put i st p with
      | none => (st, [], 1, false)
      | some st2 =>
          match putManyGo put (i + 1) st2 rest with
          | (stF, ys, att, ok) => (stF, p :: ys, att + 1, ok)

/-- `Adapter.putMany`: run the per-pair loop from position 0. -/
def Adapter.putMany {V : Type} (put : Nat → Store V → Pair V → Option (Store V))
    (st : Store V) (ps : List (Pair V)) : Store V × List (Pair V) × Nat × Bool :=
  putManyGo put 0 st ps

/-- A backend `put` that stores its pair, except that the attempt at
position `i` fails. -/
def failingPut {V : Type} (i : Nat) : Nat → Store V → Pair V → Option (Store V) :=
  fun j st p => if j = i then none else some (storePut st (Key.toStr p.key) p.value)

/-- Store state after successfully putting a list of pairs in order. -/
def putAll {V : Type} (st : Store V) (ps : List (Pair V)) : Store V :=
  ps.foldl (fun s p => storePut s (Key.toStr p.key) p.value) st

theorem putManyGo_cons {V : Type} (put : Nat → Store V → Pair V → Option (Store V))
    (i : Nat) (st : Store V) (p : Pair V) (rest : List (Pair V)) :
    putManyGo put i st (p :: rest) =
      match put i st p with
      | none => (st, [], 1, false)
      | some st2 =>
          match putManyGo put (i + 1) st2 rest with
          | (stF, ys, att, ok) => (stF, p :: ys, att + 1, ok) := rfl

theorem putManyGo_failing {V : Type} :
    ∀ (ps : List (Pair V)) (j k : Nat) (st : Store V), k < ps.length →
      putManyGo (failingPut (j + k)) j st ps =
        (putAll st (ps.take k), ps.take k, k + 1, false) := by
  intro ps
  induction ps with
  | nil => intro j k st hk; simp at hk
  | cons p rest ih =>
      intro j k st hk
      cases k with
      | zero => simp [putManyGo_cons, failingPut, putAll]
      | succ k =>
          have hne : j ≠ j + (k + 1) := by omega
          have hput : failingPut (j + (k + 1)) j st p =
              some (storePut st (Key.toStr p.key) p.value) := by
            simp [failingPut, hne]
          have hk2 : k < rest.length := by
            simp only [List.length_cons] at hk
            omega
          have harith : j + (k + 1) = (j + 1) + k := by omega
          rw [putManyGo_cons, hput, harith]
          show (match putManyGo (failingPut ((j + 1) + k)) (j + 1)
                (storePut st (Key.toStr p.key) p.value) rest with
              | (stF, ys, att, ok) => (stF, p :: ys, att + 1, ok)) = _
          rw [ih (j + 1) k (storePut st (Key.toStr p.key) p.value) hk2]
          simp [putAll]

/-- C7: `putMany` is per-item fail-fast with no rollback: when the backend
put at position i fails (the ones before it succeeding), exactly the pairs
before position i are durably stored, exactly those pairs are re-yielded,
the sequence terminates unsuccessfully at that point, and only i + 1 puts
are ever attempted, none after the failure. -/
theorem putMany_failfast {V : Type} (st : Store V) (ps : List (Pair V)) (i : Nat)
    (hi : i < ps.length) :
    Adapter.putMany (failingPut i) st ps =
      (putAll st (ps.take i), ps.take i, i + 1, false) := by
  have h := putManyGo_failing ps 0 i st hi
  simpa [Adapter.putMany] using h

/-- The spec's instance: 5 pairs with the 3rd put failing. -/
def pairsFive : List (Pair Nat) :=
  [⟨Key.fromStr (cs "/k1"), 1⟩, ⟨Key.fromStr (cs "/k2"), 2⟩,
   ⟨Key.fromStr (cs "/k3"), 3⟩, ⟨Key.fromStr (cs "/k4"), 4⟩,
   ⟨Key.fromStr (cs "/k5"), 5⟩]

/-- Witness for C7: with 5 pairs and the 3rd put failing, exactly the first
2 are stored and re-yielded and exactly 3 puts are attempted. -/
theorem putMany_failfast_witness :
    Adapter.putMany (failingPut 2) ([] : Store Nat) pairsFive =
      (putAll [] (pairsFive.take 2), pairsFive.take 2, 3, false) :=
  putMany_failfast [] pairsFive 2 (by decide)

/-! ## has versus get (C8)

`Adapter.has` (source line 84) and `Adapter.get` (source line 70), modelled
from the spec (sections 4.4 and 7) over an abstract backend lookup `fetch`
that may fault: a fault propagates; `has` reports presence without failing
for a merely absent key; `get` fails with `NotFound` for an absent key. -/

def Adapter.hasImpl {V : Type} (fetch : Key → Except ErrKind (Option V)) (k : Key) :
    Except ErrKind Bool :=
  match fetch k with
  | Except.error e => Except.error e
  | Except.ok r => Except.ok r.isSome

def Adapter.getImpl {V : Type} (fetch : Key → Except ErrKind (Option V)) (k : Key) :
    Except ErrKind V :=
  match fetch k with
  | Except.error e => Except.error e
  | Except.ok none => Except.error ErrKind.notFound
  | Except.ok (some v) => Except.ok v

/-- C8: `has` and `get` distinguish absence from fault: when the key is
absent (the underlying lookup returns no value and no fault), `has` returns
false without error and `get` fails with NotFound; and `has` fails only when
the underlying lookup itself faulted, with the same condition. -/
theorem has_get_absent {V : Type} (fetch : Key → Except ErrKind (Option V)) (k : Key) :
    (fetch k = Except.ok none →
      Adapter.hasImpl fetch k = Except.ok false ∧
      Adapter.getImpl fetch k = Except.error ErrKind.notFound) ∧
    (∀ e, Adapter.hasImpl fetch k = Except.error e → fetch k = Except.error e) := by
  constructor
  · intro h
    constructor <;> simp [Adapter.hasImpl, Adapter.getImpl, h]
  · intro e he
    cases hf : fetch k with
    | error e2 =>
        simp [Adapter.hasImpl, hf] at he
        rw [he]
    | ok r => simp [Adapter.hasImpl, hf] at he

/-- Witness for C8 on a store-backed lookup with an absent key. -/
theorem has_get_absent_witness :
    Adapter.hasImpl
        (fun k => Except.ok (storeLookup (storePut ([] : Store Nat) (cs "/other") 5)
          (Key.toStr k)))
        (Key.fromStr (cs "/missing")) = Except.ok false ∧
    Adapter.getImpl
        (fun k => Except.ok (storeLookup (storePut ([] : Store Nat) (cs "/other") 5)
          (Key.toStr k)))
        (Key.fromStr (cs "/missing")) = Except.error ErrKind.notFound :=
  (has_get_absent
    (fun k => Except.ok (storeLookup (storePut ([] : Store Nat) (cs "/other") 5)
      (Key.toStr k)))
    (Key.fromStr (cs "/missing"))).1 rfl

/-! ## Batch (C9)

The `Batch` interface (source lines 133-137), modelled from the spec
(section 4.5): `put` and `delete` are purely local appends to the pending
operation list; `commit` applies the pending operations to the bound
datastore sequentially in insertion order. -/

/-- One pending batch operation. -/
inductive BatchOp (V : Type) where
  | putOp : Key → V → BatchOp V
  | deleteOp : Key → BatchOp V
deriving DecidableEq, Repr

/-- A batch is its insertion-ordered list of pending operations. -/
abbrev Batch (V : Type) := List (BatchOp V)

/-- `Adapter.batch()` (source line 103): a fresh batch, nothing pending. -/
def Adapter.batch {V : Type} : Batch V := []

/-- `Batch.put`: local bookkeeping append, no datastore effect. -/
def Batch.put {V : Type} (b : Batch V) (k : Key) (v : V) : Batch V :=
  b ++ [BatchOp.putOp k v]

/-- `Batch.delete`: local bookkeeping append, no datastore effect. -/
def Batch.delete {V : Type} (b : Batch V) (k : Key) : Batch V :=
  b ++ [BatchOp.deleteOp k]

/-- Apply one pending operation to the datastore. -/
def applyOp {V : Type} (st : Store V) : BatchOp V → Store V
  | BatchOp.putOp k v => storePut st (Key.toStr k) v
  | BatchOp.deleteOp k => storeDelete st (Key.toStr k)

/-- `Batch.commit`: apply all pending operations in insertion order. -/
def Batch.commit {V : Type} (b : Batch V) (st : Store V) : Store V :=
  b.foldl applyOp st

/-- A datastore together with one batch bound to it; recording operations
touches only the pending list, `commit` alone touches the store (and leaves
the batch drained, so a re-commit is a no-op). -/
structure Session (V : Type) where
  store : Store V
  pending : Batch V

/-- Record a put on the session's batch. -/
def Session.put {V : Type} (s : Session V) (k : Key) (v : V) : Session V :=
  ⟨s.store, Batch.put s.pending k v⟩

/-- Record a delete on the session's batch. -/
def Session.delete {V : Type} (s : Session V) (k : Key) : Session V :=
  ⟨s.store, Batch.delete s.pending k⟩

/-- Commit the session's batch against its datastore. -/
def Session.commit {V : Type} (s : Session V) : Session V :=
  ⟨Batch.commit s.pending s.store, []⟩

/-- C9: batch commit applies the pending operations in insertion order with
last-writer-wins per key: recording put(A,v1), delete(A), put(A,v2) on a
fresh batch leaves the datastore untouched at every step, and after
`commit()` the datastore's value for A is v2. -/
theorem batch_commit_last_writer {V : Type} (st : Store V) (A : Key) (v1 v2 : V) :
    (Session.put (⟨st, Adapter.batch⟩ : Session V) A v1).store = st ∧
    (Session.delete (Session.put (⟨st, Adapter.batch⟩ : Session V) A v1) A).store = st ∧
    (Session.put (Session.delete (Session.put (⟨st, Adapter.batch⟩ : Session V) A v1) A)
        A v2).store = st ∧
    storeLookup
        (Session.commit
          (Session.put
            (Session.delete (Session.put (⟨st, Adapter.batch⟩ : Session V) A v1) A)
            A v2)).store
        (Key.toStr A) = some v2 := by
  refine ⟨rfl, rfl, rfl, ?_⟩
  show storeLookup
      (storePut (storeDelete (storePut st (Key.toStr A) v1) (Key.toStr A))
        (Key.toStr A) v2)
      (Key.toStr A) = some v2
  exact storeLookup_put _ _ _

/-! ## MemoryDatastore (C10)

The reference in-memory backend (source lines 122-131): its `put`, `get`,
`has` and `delete` signatures take no options argument, hence no
AbortSignal; the behaviour over the backing map is modelled from the spec
(section 4.6). -/

namespace MemoryDatastore

/-- `MemoryDatastore.put` (source line 126): no options parameter. -/
def put {V : Type} (st : Store V) (k : Key) (v : V) : Store V :=
  storePut st (Key.toStr k) v

/-- `MemoryDatastore.get` (source line 127): no options parameter. -/
def get {V : Type} (st : Store V) (k : Key) : Except ErrKind V :=
  match storeLookup st (Key.toStr k) with
  | some v => Except.ok v
  | none => Except.error ErrKind.notFound

/-- `MemoryDatastore.has` (source line 128): no options parameter. -/
def has {V : Type} (st : Store V) (k : Key) : Bool :=
  (storeLookup st (Key.toStr k)).isSome

/-- `MemoryDatastore.delete` (source line 129): no options parameter. -/
def delete {V : Type} (st : Store V) (k : Key) : Store V :=
  storeDelete st (Key.toStr k)

end MemoryDatastore

/-- C10: the single-item MemoryDatastore operations are uncancellable at the
public interface: with no options argument (source lines 126-129) there is
no AbortSignal, so `get` never fails with an Aborted condition and can only
fail with NotFound exactly when the key is absent, `has` never fails, `put`
and `delete` always succeed, and every outcome is a function of the key, the
value and the current store contents alone. -/
theorem memory_uncancellable {V : Type} (st : Store V) (k : Key) (v : V) :
    MemoryDatastore.get st k ≠ Except.error ErrKind.aborted ∧
    (∀ e, MemoryDatastore.get st k = Except.error e →
      e = ErrKind.notFound ∧ storeLookup st (Key.toStr k) = none) ∧
    MemoryDatastore.has st k = (storeLookup st (Key.toStr k)).isSome ∧
    MemoryDatastore.put st k v = storePut st (Key.toStr k) v ∧
    MemoryDatastore.delete st k = storeDelete st (Key.toStr k) := by
  refine ⟨?_, ?_, rfl, rfl, rfl⟩
  · intro h
    cases hl : storeLookup st (Key.toStr k) <;>
      simp [MemoryDatastore.get, hl] at h
  · intro e he
    cases hl : storeLookup st (Key.toStr k) with
    | none =>
        simp [MemoryDatastore.get, hl] at he
        exact ⟨he.symm, rfl⟩
    | some v2 => simp [MemoryDatastore.get, hl] at he
